import Mathlib

/-!
Verification of the concurrent batch I/O core of an Electron image-gallery
application.  The definitions below are shallow embeddings of the TypeScript
source:

* `runConcurrent` (src/client/electron/utils/concurrency.ts) — a bounded
  worker pool.  Its cooperative (event-loop) execution is modelled as a
  small-step transition system `PoolStep` on `PoolState`: between two `await`
  suspension points JavaScript runs a worker's code atomically, so one
  transition covers one synchronous segment of one worker.
* `handleExportImages` (same file) — collision-safe naming loop and the
  streamed download of one item.
* the upload / crop / EXIF routes of the Express server
  (src/server/api/src/routes/images.routes.ts and its EXIF variant) —
  modelled over an abstract catalog (list of rows) and filesystem
  (list of paths).
* `generateUniqueFilename` (src/server/api/src/utils/image.utils.ts).

The file is organised as definitions first, then theorems.
-/

namespace Gallery

/-! ## Part 1: definitions -/

/-! ### Bounded worker pool (`runConcurrent`)

```ts
export async function runConcurrent<T>(items, concurrency, task) {
  const queue = [...items];
  const workers = [];
  for (let i = 0; i < Math.min(concurrency, items.length); i++) {
    workers.push((async () => {
      while (queue.length > 0) {
        const item = queue.shift();
        if (item) { await task(item); }
      }
    })());
  }
  await Promise.all(workers);
}
```

`tru` is the JavaScript truthiness oracle for the element type (the guard
`if (item)`), `fails` tells whether `task item` rejects.  The synchronous
segment of a worker's loop pops elements until the first truthy one (falsy
elements are dequeued and skipped without an `await`), then suspends on
`await task(item)`; this whole segment is one atomic `claim` transition.
-/

/-- Status of one worker coroutine spawned by `runConcurrent`. -/
inductive Worker (T : Type) where
  /-- between `await`s, about to re-test `queue.length > 0` -/
  | idle : Worker T
  /-- suspended on `await task(item)` -/
  | running (item : T) : Worker T
  /-- the `while` loop exited normally; the worker promise resolved -/
  | done : Worker T
  /-- `task(item)` rejected, the worker promise rejected -/
  | dead : Worker T
deriving DecidableEq, Repr

/-- Global state of one `runConcurrent` invocation: the shared `queue`,
the spawned workers, and the list of items on which `task` has been
invoked so far (in invocation order). -/
structure PoolState (T : Type) where
  queue : List T
  workers : List (Worker T)
  invoked : List T
deriving DecidableEq, Repr

/-- One synchronous run of the worker loop head: `queue.shift()` repeatedly,
skipping falsy items (`if (item)` fails), until a truthy item is claimed
(`(some item, rest)`) or the queue is exhausted (`(none, [])`). -/
def claimChunk (tru : T → Bool) : List T → Option T × List T
  | [] => (none, [])
  | x :: xs => if tru x then (some x, xs) else claimChunk tru xs

/-- Initial state: the copied queue and `Math.min(concurrency, items.length)`
workers (`concurrency` is a JS number, so it is taken as an integer and may
be non-positive, in which case the `for` loop spawns no workers). -/
def initState (items : List T) (concurrency : Int) : PoolState T :=
  { queue := items
    workers := List.replicate (min concurrency (items.length : Int)).toNat .idle
    invoked := [] }

/-- Small-step transition relation of the pool: each constructor is one
atomic (between-`await`s) segment of one worker, identified by its position
`l₁ ++ w :: l₂` in the worker list. -/
inductive PoolStep (tru fails : T → Bool) : PoolState T → PoolState T → Prop where
  /-- an idle worker's loop claims the first truthy item and suspends on
  `await task(item)` -/
  | claimRun (l₁ l₂ : List (Worker T)) (q rest inv : List T) (x : T)
      (h : claimChunk tru q = (some x, rest)) :
      PoolStep tru fails ⟨q, l₁ ++ .idle :: l₂, inv⟩
        ⟨rest, l₁ ++ .running x :: l₂, inv ++ [x]⟩
  /-- an idle worker's loop drains only falsy items, sees the empty queue and
  returns -/
  | claimDone (l₁ l₂ : List (Worker T)) (q rest inv : List T)
      (h : claimChunk tru q = (none, rest)) :
      PoolStep tru fails ⟨q, l₁ ++ .idle :: l₂, inv⟩
        ⟨rest, l₁ ++ .done :: l₂, inv⟩
  /-- `task(item)` fulfilled; the worker resumes its loop -/
  | finishOk (l₁ l₂ : List (Worker T)) (q inv : List T) (x : T)
      (h : fails x = false) :
      PoolStep tru fails ⟨q, l₁ ++ .running x :: l₂, inv⟩
        ⟨q, l₁ ++ .idle :: l₂, inv⟩
  /-- `task(item)` rejected; the worker's async function rethrows and its
  promise rejects -/
  | finishFail (l₁ l₂ : List (Worker T)) (q inv : List T) (x : T)
      (h : fails x = true) :
      PoolStep tru fails ⟨q, l₁ ++ .running x :: l₂, inv⟩
        ⟨q, l₁ ++ .dead :: l₂, inv⟩

/-- All interleavings of the event loop. -/
def PoolReach (tru fails : T → Bool) : PoolState T → PoolState T → Prop :=
  Relation.ReflTransGen (PoolStep tru fails)

/-- Every worker promise has settled: `Promise.all(workers)` has settled too
and `runConcurrent` returns (fulfilled or rejected). -/
def Settled (s : PoolState T) : Prop :=
  ∀ w ∈ s.workers, w = Worker.done ∨ w = Worker.dead

instance (s : PoolState T) [DecidableEq T] : Decidable (Settled s) := by
  unfold Settled; infer_instance

/-- `Promise.all` rejects as soon as one worker promise rejects, so the
promise returned by `runConcurrent` rejects iff some worker died. -/
def poolRejects (s : PoolState T) : Prop :=
  Worker.dead ∈ s.workers

/-- Number of `task` invocations currently in flight. -/
def activeCount (s : PoolState T) : Nat :=
  s.workers.countP fun w => match w with | .running _ => true | _ => false

/-- `true` on a worker suspended on a task that will reject. -/
def runningFails (fails : T → Bool) : Worker T → Bool
  | .running x => fails x
  | _ => false

/-- `true` on a worker whose promise rejected. -/
def Worker.isDead : Worker T → Bool
  | .dead => true
  | _ => false

/-- The queue is always a suffix of the input and the invocation log is
exactly the truthy part of the consumed prefix: items are claimed from the
front, in order, at most once each. -/
def QueueSpec (items : List T) (tru : T → Bool) (s : PoolState T) : Prop :=
  ∃ k ≤ items.length,
    s.queue = items.drop k ∧ s.invoked = (items.take k).filter tru

/-- Once any worker has returned normally, the queue is empty (a worker only
exits its `while` loop after observing `queue.length === 0`). -/
def DoneEmpty (s : PoolState T) : Prop :=
  Worker.done ∈ s.workers → s.queue = []

/-- Accounting of failures: every invoked item whose task rejects is either
still in flight or has killed its worker. -/
def FailCount (fails : T → Bool) (s : PoolState T) : Prop :=
  (s.invoked.filter fails).length =
    s.workers.countP Worker.isDead + s.workers.countP (runningFails fails)

/-- JavaScript truthiness for the `Int` element type: `0` is falsy. -/
def intTruthy : Int → Bool := fun x => decide (x ≠ 0)

/-- A task that always fulfills. -/
def noFail : Int → Bool := fun _ => false

/-- A task that rejects exactly on item `1`. -/
def failsOn1 : Int → Bool := fun x => decide (x = 1)

/-! ### Server-side catalog and upload / crop / EXIF pipelines

The catalog (`prisma.image` table) is modelled as a list of rows holding the
fields the claims are about; the filesystem as the list of existing paths.
Asset-processor calls (`getImageMetadataFromPath` / `getExifDataFromPath`,
`generateThumbnailFromPath`, `moveFile`) are I/O whose success is an input of
the model (`metaOk`, `thumbOk`, `moveOk`); a failing call performs no write
(`sharp(...).toFile` either produces the file or throws). -/

/-- One row of the `image` table (the fields relevant to the claims).
`deleted_at = none` means the record is live; `DELETE /images/:id` in the
soft-delete variant sets it to the deletion timestamp. -/
structure ImageRow where
  id : Nat
  filehash : String
  deleted_at : Option Nat
deriving DecidableEq, Repr

/-- `deleteFileIfExists`: removing a path is a no-op when absent. -/
def deleteFile (p : String) (fs : List String) : List String :=
  fs.filter (fun q => q != p)

/-- The duplicate lookup of `POST /images`:
`prisma.image.findFirst({ where: { filehash: fileHash } })` — note that the
`where` clause has no `deleted_at: null` condition. -/
def findDuplicate (db : List ImageRow) (h : String) : Option ImageRow :=
  db.find? (fun img => img.filehash == h)

/-- HTTP-level outcome of a pipeline invocation. -/
inductive ApiResult where
  | invalidImage
  | duplicate (existingId : Nat)
  | thumbnailFailed
  | uploadFailed
  | cropFailed
  | created (row : ImageRow)
deriving DecidableEq, Repr

/-- Result of one pipeline call: the response plus the catalog and
filesystem after the call returns. -/
structure PipelineOut where
  resp : ApiResult
  db : List ImageRow
  fs : List String
deriving DecidableEq, Repr

/-- The `POST /images` handler (images.routes.ts).  The staged temp file
`tempPath` was written by multer before the handler runs, so `tempPath ∈ fs`
on entry.  Mirrors the route body:
1. metadata extraction (corruption check) — failure: delete temp, 400;
2. hash (the digest of the staged bytes is the input `fileHash`);
3. duplicate check via `findDuplicate` — hit: delete temp, 409 with the
   existing row's id;
4. thumbnail generation into `thumbPath` — failure: delete temp, 500;
5. `moveFile` temp → `finalPath` — failure: delete thumbnail, delete temp,
   500 (the outer catch deletes temp again, a no-op);
6. insert the catalog row, 201. -/
def ingestUpload (metaOk thumbOk moveOk : Bool)
    (tempPath finalPath thumbPath fileHash : String) (newId : Nat)
    (db : List ImageRow) (fs : List String) : PipelineOut :=
  if metaOk = false then
    ⟨.invalidImage, db, deleteFile tempPath fs⟩
  else
    match findDuplicate db fileHash with
    | some existing => ⟨.duplicate existing.id, db, deleteFile tempPath fs⟩
    | none =>
      if thumbOk = false then
        ⟨.thumbnailFailed, db, deleteFile tempPath fs⟩
      else
        let fsThumb := fs ++ [thumbPath]
        if moveOk = false then
          ⟨.uploadFailed, db, deleteFile tempPath (deleteFile thumbPath fsThumb)⟩
        else
          ⟨.created ⟨newId, fileHash, none⟩,
            db ++ [⟨newId, fileHash, none⟩],
            deleteFile tempPath fsThumb ++ [finalPath]⟩

/-- The `POST /images/:id/crop` handler (EXIF routes variant).  The cropped
region is written to a fresh `tempPath`, hashed (`newHash`), moved to
`finalPath`, a thumbnail is generated from the final file, and a new row is
inserted — with no duplicate check on `newHash`.  Any failure is caught by a
handler that deletes only the temp file (narrow rollback). -/
def cropPipeline (cropOk moveOk thumbOk : Bool)
    (tempPath finalPath thumbPath newHash : String) (newId : Nat)
    (db : List ImageRow) (fs : List String) : PipelineOut :=
  if cropOk = false then
    ⟨.cropFailed, db, deleteFile tempPath fs⟩
  else
    let fsTemp := fs ++ [tempPath]
    if moveOk = false then
      ⟨.cropFailed, db, deleteFile tempPath fsTemp⟩
    else
      let fsMoved := deleteFile tempPath fsTemp ++ [finalPath]
      if thumbOk = false then
        ⟨.cropFailed, db, deleteFile tempPath fsMoved⟩
      else
        ⟨.created ⟨newId, newHash, none⟩,
          db ++ [⟨newId, newHash, none⟩],
          fsMoved ++ [thumbPath]⟩

/-- The `PATCH /images/:id/exif` handler's catalog effect: after writing EXIF
tags in place, the file's hash is recomputed and the row is updated with the
new `filehash` — with no duplicate check. -/
def exifRewrite (imageId : Nat) (newHash : String)
    (db : List ImageRow) : List ImageRow :=
  db.map (fun r => if r.id = imageId then { r with filehash := newHash } else r)

/-- The spec's invariant: `contentHash` is unique among non-deleted assets. -/
def liveUnique (db : List ImageRow) : Prop :=
  db.Pairwise fun a b =>
    a.deleted_at = none → b.deleted_at = none → a.filehash ≠ b.filehash

instance (db : List ImageRow) : Decidable (liveUnique db) := by
  unfold liveUnique; infer_instance

/-! ### Filename derivation (image.utils.ts) and export naming / download
(`handleExportImages`, electron main process) -/

/-- Node's `path.extname`: the substring of the basename from its last dot;
empty when the basename contains no dot or only a leading dot (dotfile).
Implemented over the character list so that it evaluates by kernel
reduction. -/
def extname (p : String) : String :=
  let base := p.data.foldl (fun acc c => if c = '/' then [] else acc ++ [c]) []
  let rev := base.reverse
  let tail := rev.takeWhile (fun c => c ≠ '.')
  if tail.length = rev.length then ""
  else if tail.length + 1 = rev.length then ""
  else String.mk ('.' :: tail.reverse)

/-- `generateUniqueFilename(originalName, hash)` (image.utils.ts):
`` `${hash}_${timestamp}${ext}` `` where `ext = path.extname(originalName)`
and `timestamp = Date.now()`; the wall clock is passed in as `now`. -/
def generateUniqueFilename (originalName hash : String) (now : Nat) : String :=
  hash ++ "_" ++ toString now ++ extname originalName

/-- `filename.replace(/[^a-zA-Z0-9._-]/g, "_")` in `handleExportImages`. -/
def sanitizeFilename (s : String) : String :=
  String.mk (s.data.map fun c =>
    if c.isAlphanum ∨ c = '.' ∨ c = '_' ∨ c = '-' then c else '_')

/-- `path.parse(filename).name`: the filename with its extension removed. -/
def nameWithoutExt (filename : String) : String :=
  String.mk (filename.data.take
    (filename.data.length - (extname filename).data.length))

/-- Candidate path tested by the collision loop at attempt `n`:
`path.join(targetFolder, filename)` first, then
`path.join(targetFolder, `${nameWithoutExt}_${counter}${ext}`)` for
`counter = 1, 2, …` (`path.join` modelled as `"/"`-concatenation). -/
def exportCandidate (targetFolder filename : String) : Nat → String
  | 0 => targetFolder ++ "/" ++ filename
  | n + 1 =>
    targetFolder ++ "/" ++ nameWithoutExt filename
      ++ "_" ++ toString (n + 1) ++ extname filename

/-- The `while (fs.existsSync(filePath))` loop of `handleExportImages`,
fuelled (the loop terminates on a real filesystem because only finitely many
paths exist; `fs.length + 1` attempts suffice when some candidate is free). -/
def resolveExportPathAux (fs : List String) (targetFolder filename : String) :
    Nat → Nat → String
  | 0, n => exportCandidate targetFolder filename n
  | fuel + 1, n =>
    if exportCandidate targetFolder filename n ∈ fs then
      resolveExportPathAux fs targetFolder filename fuel (n + 1)
    else exportCandidate targetFolder filename n

/-- The destination path chosen for one export item. -/
def resolveExportPath (fs : List String) (targetFolder filename : String) :
    String :=
  resolveExportPathAux fs targetFolder filename (fs.length + 1) 0

/-- Outcome of `net.request` for one export item. -/
inductive NetResponse where
  /-- the request errored before any response arrived -/
  | requestError
  /-- a response with `statusCode`, the byte chunks delivered by `data`
  events, and whether the stream terminated with an `error` event instead of
  `end` -/
  | response (statusCode : Nat) (chunks : List (List Nat)) (ioError : Bool)

/-- A write-stream file creation: `fs.createWriteStream(p)` truncates any
existing file at `p`, and the file then holds the bytes written. -/
def setFile (p : String) (content : List Nat)
    (fsx : List (String × List Nat)) : List (String × List Nat) :=
  fsx.filter (fun e => e.1 != p) ++ [(p, content)]

/-- The per-item `downloadImage` task of `handleExportImages` at its chosen
destination path, returning whether the item succeeded and the resulting
filesystem:
* a request error rejects before any response — no stream, no file;
* a non-200 status rejects before `fs.createWriteStream` runs — no file;
* on a 200 response the write stream is created and every delivered chunk is
  written; an `error` event runs `fileStream.close()` and rejects **without
  deleting the partially-written file**.
The surrounding `try/catch` converts any rejection into a logged per-item
failure, so the task itself never throws and sibling downloads continue. -/
def downloadImage (resp : NetResponse) (destPath : String)
    (fsx : List (String × List Nat)) : Bool × List (String × List Nat) :=
  match resp with
  | .requestError => (false, fsx)
  | .response statusCode chunks ioError =>
    if statusCode ≠ 200 then (false, fsx)
    else (!ioError, setFile destPath chunks.flatten fsx)

/-! ## Part 2: theorems -/

/-! ### Basic facts about `claimChunk` -/

theorem claimChunk_some {tru : T → Bool} :
    ∀ {q rest : List T} {x : T}, claimChunk tru q = (some x, rest) →
    ∃ p, q = p ++ x :: rest ∧ (∀ y ∈ p, tru y = false) ∧ tru x = true := by
  intro q
  induction q with
  | nil => intro rest x h; simp [claimChunk] at h
  | cons a as ih =>
    intro rest x h
    by_cases ha : tru a
    · simp [claimChunk, ha] at h
      obtain ⟨hx, hrest⟩ := h
      subst hx; subst hrest
      exact ⟨[], by simp, by simp, ha⟩
    · simp [claimChunk, ha] at h
      obtain ⟨p, hp, hall, hx⟩ := ih h
      exact ⟨a :: p, by simp [hp], by simpa [ha] using hall, hx⟩

theorem claimChunk_none {tru : T → Bool} :
    ∀ {q rest : List T}, claimChunk tru q = (none, rest) →
    rest = [] ∧ ∀ y ∈ q, tru y = false := by
  intro q
  induction q with
  | nil => intro rest h; simp [claimChunk] at h; simp [h]
  | cons a as ih =>
    intro rest h
    by_cases ha : tru a
    · simp [claimChunk, ha] at h
    · simp [claimChunk, ha] at h
      obtain ⟨h1, h2⟩ := ih h
      exact ⟨h1, by simpa [ha] using h2⟩

/-! ### Pool invariants -/

theorem poolStep_workers_length {tru fails : T → Bool} {s s' : PoolState T}
    (h : PoolStep tru fails s s') : s'.workers.length = s.workers.length := by
  cases h <;> simp

theorem poolStep_queueSpec {items : List T} {tru fails : T → Bool}
    {s s' : PoolState T} (h : PoolStep tru fails s s')
    (hq : QueueSpec items tru s) : QueueSpec items tru s' := by
  obtain ⟨k, hk, hqueue, hinv⟩ := hq
  cases h with
  | claimRun l₁ l₂ q rest inv x hc =>
    obtain ⟨p, hdecomp, hfalsy, hx⟩ := claimChunk_some hc
    simp only at hqueue hinv
    refine ⟨k + (p.length + 1), ?_, ?_, ?_⟩
    · have hlen : (items.drop k).length = items.length - k := by simp
      rw [hqueue] at hdecomp
      have : (items.drop k).length = p.length + 1 + rest.length := by
        rw [hdecomp]; simp; omega
      omega
    · show rest = items.drop (k + (p.length + 1))
      have h1 : items.drop (k + (p.length + 1)) = (items.drop k).drop (p.length + 1) := by
        rw [List.drop_drop]
      rw [h1, hqueue] at *
      rw [hdecomp]
      have : p ++ x :: rest = (p ++ [x]) ++ rest := by simp
      rw [this, List.drop_left' (by simp)]
    · show inv ++ [x] = (items.take (k + (p.length + 1))).filter tru
      rw [List.take_add, List.filter_append, ← hinv, hqueue] at *
      rw [hdecomp]
      have : p ++ x :: rest = (p ++ [x]) ++ rest := by simp
      rw [this, List.take_left' (by simp), List.filter_append,
        List.filter_eq_nil_iff.mpr (by simpa using hfalsy)]
      simp [hx]
  | claimDone l₁ l₂ q rest inv hc =>
    obtain ⟨hrest, hfalsy⟩ := claimChunk_none hc
    simp only at hqueue hinv
    refine ⟨items.length, le_refl _, ?_, ?_⟩
    · show rest = items.drop items.length
      simp [hrest]
    · show inv = (items.take items.length).filter tru
      rw [List.take_length, hinv]
      have hnil : List.filter tru (items.drop k) = [] :=
        List.filter_eq_nil_iff.mpr (by rw [← hqueue]; simpa using hfalsy)
      conv_rhs => rw [← List.take_append_drop k items]
      rw [List.filter_append, hnil]
      simp
  | finishOk l₁ l₂ q inv x hf => exact ⟨k, hk, hqueue, hinv⟩
  | finishFail l₁ l₂ q inv x hf => exact ⟨k, hk, hqueue, hinv⟩

theorem poolStep_doneEmpty {tru fails : T → Bool} {s s' : PoolState T}
    (h : PoolStep tru fails s s') (hd : DoneEmpty s) : DoneEmpty s' := by
  cases h with
  | claimRun l₁ l₂ q rest inv x hc =>
    intro hmem
    simp only [DoneEmpty] at hd
    simp at hmem
    have hq : q = [] := by
      apply hd
      simp
      tauto
    rw [hq] at hc
    simp [claimChunk] at hc
  | claimDone l₁ l₂ q rest inv hc =>
    intro _
    exact (claimChunk_none hc).1
  | finishOk l₁ l₂ q inv x hf =>
    intro hmem
    simp at hmem
    apply hd
    simp
    tauto
  | finishFail l₁ l₂ q inv x hf =>
    intro hmem
    simp at hmem
    apply hd
    simp
    tauto

theorem poolStep_failCount {tru fails : T → Bool} {s s' : PoolState T}
    (h : PoolStep tru fails s s') (hf : FailCount fails s) :
    FailCount fails s' := by
  cases h with
  | claimRun l₁ l₂ q rest inv x hc =>
    simp only [FailCount] at *
    simp only [List.filter_append, List.countP_append, List.countP_cons,
      List.length_append] at *
    by_cases hx : fails x <;>
      simp [runningFails, Worker.isDead, hx, List.filter_cons] at * <;> omega
  | claimDone l₁ l₂ q rest inv hc =>
    simp only [FailCount] at *
    simp only [List.countP_append, List.countP_cons] at *
    simp [runningFails, Worker.isDead] at *
    omega
  | finishOk l₁ l₂ q inv x hfl =>
    simp only [FailCount] at *
    simp only [List.countP_append, List.countP_cons] at *
    simp [runningFails, Worker.isDead, hfl] at *
    omega
  | finishFail l₁ l₂ q inv x hfl =>
    simp only [FailCount] at *
    simp only [List.countP_append, List.countP_cons] at *
    simp [runningFails, Worker.isDead, hfl] at *
    omega

theorem reach_queueSpec {items : List T} {c : Int} {tru fails : T → Bool}
    {s : PoolState T} (h : PoolReach tru fails (initState items c) s) :
    QueueSpec items tru s := by
  induction h with
  | refl => exact ⟨0, Nat.zero_le _, by simp [initState], by simp [initState]⟩
  | tail _ hstep ih => exact poolStep_queueSpec hstep ih

theorem reach_doneEmpty {items : List T} {c : Int} {tru fails : T → Bool}
    {s : PoolState T} (h : PoolReach tru fails (initState items c) s) :
    DoneEmpty s := by
  induction h with
  | refl =>
    intro hmem
    simp [initState, List.mem_replicate] at hmem
  | tail _ hstep ih => exact poolStep_doneEmpty hstep ih

theorem reach_failCount {items : List T} {c : Int} {tru fails : T → Bool}
    {s : PoolState T} (h : PoolReach tru fails (initState items c) s) :
    FailCount fails s := by
  induction h with
  | refl =>
    simp only [FailCount, initState, List.filter_nil, List.length_nil]
    have hz : ∀ p : Worker T → Bool, p Worker.idle = false →
        List.countP p
          (List.replicate (min c (items.length : Int)).toNat Worker.idle) = 0 := by
      intro p hp
      rw [List.countP_eq_zero]
      intro a ha
      rw [List.eq_of_mem_replicate ha, hp]
      simp
    rw [hz _ rfl, hz _ rfl]
  | tail _ hstep ih => exact poolStep_failCount hstep ih

theorem reach_workers_length {items : List T} {c : Int} {tru fails : T → Bool}
    {s : PoolState T} (h : PoolReach tru fails (initState items c) s) :
    s.workers.length = (min c (items.length : Int)).toNat := by
  induction h with
  | refl => simp [initState]
  | tail _ hstep ih => rw [poolStep_workers_length hstep, ih]

theorem poolStep_workers_ne_nil {tru fails : T → Bool} {s s' : PoolState T}
    (h : PoolStep tru fails s s') : s.workers ≠ [] := by
  cases h <;> simp

/-! ### Claim theorems about `runConcurrent` -/

/-- C3: for every items list, every truthiness oracle and task behaviour, and
every `limit ≥ 1`, `runConcurrent` spawns exactly `min(limit, items.length)`
workers, and in every state of every interleaving at most `limit` invocations
of `task` are simultaneously in flight (each worker awaits `task(item)` before
claiming the next item). -/
theorem runConcurrent_bound (items : List T) (tru fails : T → Bool)
    (limit : Nat) (hl : 1 ≤ limit) :
    (initState items (limit : Int)).workers.length = min limit items.length ∧
    ∀ s, PoolReach tru fails (initState items (limit : Int)) s →
      activeCount s ≤ limit := by
  constructor
  · simp [initState]
    omega
  · intro s hs
    have h1 : activeCount s ≤ s.workers.length := List.countP_le_length _
    have h2 := reach_workers_length hs
    omega

theorem runConcurrent_bound_witness :
    (initState ([5, 7] : List Int) ((1 : Nat) : Int)).workers.length
        = min 1 ([5, 7] : List Int).length ∧
    ∀ s, PoolReach intTruthy noFail (initState ([5, 7] : List Int) ((1 : Nat) : Int)) s →
      activeCount s ≤ 1 :=
  runConcurrent_bound [5, 7] intTruthy noFail 1 (by decide)

/-- C2 counterexample: `runConcurrent` invoked on the one-element list `[0]`
(`0` is falsy in JavaScript) with `limit = 1` reaches — along the only
schedule — a settled, non-rejected state in which `task` was never invoked:
the falsy element is dequeued by `queue.shift()` but skipped by the
`if (item)` guard, so not every element of the input is passed to `task`. -/
theorem runConcurrent_completeness_cex :
    PoolReach intTruthy noFail (initState [(0 : Int)] 1)
        ⟨[], [Worker.done], []⟩ ∧
    Settled (⟨[], [Worker.done], []⟩ : PoolState Int) ∧
    ¬ poolRejects (⟨[], [Worker.done], []⟩ : PoolState Int) ∧
    (0 : Int) ∉ (PoolState.invoked (⟨[], [Worker.done], []⟩ : PoolState Int)) := by
  refine ⟨?_, by decide, by simp [poolRejects], by simp⟩
  have h0 : initState [(0 : Int)] 1 = (⟨[0], [Worker.idle], []⟩ : PoolState Int) := by
    decide
  have st1 : PoolStep intTruthy noFail
      (⟨[0], [Worker.idle], []⟩ : PoolState Int) ⟨[], [Worker.done], []⟩ :=
    PoolStep.claimDone [] [] [0] [] [] (by decide)
  rw [h0]
  exact Relation.ReflTransGen.single st1

/-- C2 amended: for every items list and `limit ≥ 1`, when no task rejects,
every settled state of every interleaving has invoked `task` exactly once on
each JS-truthy element of the input, in input order; falsy elements are
dequeued without ever being passed to `task` (the `if (item)` guard skips
them). -/
theorem runConcurrent_completeness_amended (items : List T)
    (tru fails : T → Bool) (limit : Nat) (hl : 1 ≤ limit)
    (hnofail : ∀ i, fails i = false) (s : PoolState T)
    (hreach : PoolReach tru fails (initState items (limit : Int)) s)
    (hsettled : Settled s) :
    s.invoked = items.filter tru := by
  obtain ⟨k, hk, hq, hi⟩ := reach_queueSpec hreach
  by_cases hw : s.workers = []
  · have hlen := reach_workers_length hreach
    rw [hw] at hlen
    simp at hlen
    have hitems : items = [] := by
      have : items.length = 0 := by omega
      exact List.length_eq_zero.mp this
    subst hitems
    simp at hq hi ⊢
    simpa using hi
  · -- no worker died (no task fails), so some worker finished normally
    have hfc := reach_failCount hreach
    simp only [FailCount] at hfc
    have hfilter : s.invoked.filter fails = [] :=
      List.filter_eq_nil_iff.mpr (fun a _ => by simp [hnofail a])
    rw [hfilter] at hfc
    simp at hfc
    have hnodead : ∀ w ∈ s.workers, w ≠ Worker.dead := by
      intro w hwmem hdead
      have : 0 < s.workers.countP Worker.isDead :=
        List.countP_pos_iff.mpr ⟨w, hwmem, by simp [hdead, Worker.isDead]⟩
      omega
    obtain ⟨w, hwmem⟩ := List.exists_mem_of_ne_nil _ hw
    have hwdone : w = Worker.done := by
      rcases hsettled w hwmem with h | h
      · exact h
      · exact absurd h (hnodead w hwmem)
    have hqnil : s.queue = [] :=
      reach_doneEmpty hreach (hwdone ▸ hwmem)
    rw [hq] at hqnil
    have hklen : items.length ≤ k := by
      have := congrArg List.length hqnil
      simp at this
      omega
    have : k = items.length := by omega
    subst this
    rw [hi, List.take_length]

theorem runConcurrent_completeness_amended_witness :
    (PoolState.invoked (⟨[], [Worker.done], [3]⟩ : PoolState Int))
      = ([3] : List Int).filter intTruthy := by
  have h0 : initState [(3 : Int)] ((1 : Nat) : Int)
      = (⟨[3], [Worker.idle], []⟩ : PoolState Int) := by decide
  refine runConcurrent_completeness_amended [3] intTruthy noFail 1 (by decide)
    (fun i => rfl) _ ?_ (by decide)
  have st1 : PoolStep intTruthy noFail
      (⟨[3], [Worker.idle], []⟩ : PoolState Int) ⟨[], [Worker.running 3], [3]⟩ :=
    PoolStep.claimRun [] [] [3] [] [] 3 (by decide)
  have st2 : PoolStep intTruthy noFail
      (⟨[], [Worker.running 3], [3]⟩ : PoolState Int) ⟨[], [Worker.idle], [3]⟩ :=
    PoolStep.finishOk [] [] [] [3] 3 (by decide)
  have st3 : PoolStep intTruthy noFail
      (⟨[], [Worker.idle], [3]⟩ : PoolState Int) ⟨[], [Worker.done], [3]⟩ :=
    PoolStep.claimDone [] [] [] [] [3] (by decide)
  rw [h0]
  exact Relation.ReflTransGen.head st1
    (Relation.ReflTransGen.head st2 (Relation.ReflTransGen.single st3))

/-- C1 counterexample: items `[1, 2]`, `limit = 1`, and a task that rejects on
item `1`.  Along the only schedule the pool reaches a settled state in which
the single worker died, `runConcurrent`'s promise rejects (`Promise.all`
propagates the rejection), and `task` was never invoked on the remaining item
`2` — refuting both "still invokes task on every remaining item" and
"resolves normally without rethrowing". -/
theorem runConcurrent_fault_isolation_cex :
    PoolReach intTruthy failsOn1 (initState [(1 : Int), 2] 1)
        ⟨[2], [Worker.dead], [1]⟩ ∧
    Settled (⟨[2], [Worker.dead], [1]⟩ : PoolState Int) ∧
    poolRejects (⟨[2], [Worker.dead], [1]⟩ : PoolState Int) ∧
    (2 : Int) ∉ (PoolState.invoked (⟨[2], [Worker.dead], [1]⟩ : PoolState Int)) := by
  refine ⟨?_, by decide, by simp [poolRejects], by simp⟩
  have h0 : initState [(1 : Int), 2] 1
      = (⟨[1, 2], [Worker.idle], []⟩ : PoolState Int) := by decide
  have st1 : PoolStep intTruthy failsOn1
      (⟨[1, 2], [Worker.idle], []⟩ : PoolState Int) ⟨[2], [Worker.running 1], [1]⟩ :=
    PoolStep.claimRun [] [] [1, 2] [2] [] 1 (by decide)
  have st2 : PoolStep intTruthy failsOn1
      (⟨[2], [Worker.running 1], [1]⟩ : PoolState Int) ⟨[2], [Worker.dead], [1]⟩ :=
    PoolStep.finishFail [] [] [2] [1] 1 (by decide)
  rw [h0]
  exact Relation.ReflTransGen.head st1 (Relation.ReflTransGen.single st2)

/-- C1 amended: a rejecting task is that worker's terminal failure, not the
item's alone.  In every settled state of every interleaving with
`limit ≥ 1`: a worker that returned normally only did so after the queue was
drained (surviving siblings keep claiming items); each item is claimed at
most once, in input order; and the promise returned by `runConcurrent`
rejects if and only if `task` rejected on some invoked item — it does not
resolve normally when a task throws. -/
theorem runConcurrent_fault_isolation_amended (items : List T)
    (tru fails : T → Bool) (limit : Nat) (hl : 1 ≤ limit) (s : PoolState T)
    (hreach : PoolReach tru fails (initState items (limit : Int)) s)
    (hsettled : Settled s) :
    (Worker.done ∈ s.workers → s.queue = []) ∧
    (∃ k ≤ items.length,
      s.queue = items.drop k ∧ s.invoked = (items.take k).filter tru) ∧
    (poolRejects s ↔ ∃ i ∈ s.invoked, fails i = true) := by
  refine ⟨reach_doneEmpty hreach, reach_queueSpec hreach, ?_⟩
  have hfc := reach_failCount hreach
  constructor
  · intro hdead
    have hpos : 0 < s.workers.countP Worker.isDead :=
      List.countP_pos_iff.mpr ⟨Worker.dead, hdead, by simp [Worker.isDead]⟩
    have hlpos : 0 < (s.invoked.filter fails).length := by
      simp only [FailCount] at hfc
      omega
    obtain ⟨i, hi⟩ := List.exists_mem_of_ne_nil (s.invoked.filter fails) (by
      intro hnil
      rw [hnil] at hlpos
      simp at hlpos)
    have hmem := List.mem_filter.mp hi
    exact ⟨i, hmem.1, hmem.2⟩
  · rintro ⟨i, hiinv, hifails⟩
    have hrun0 : s.workers.countP (runningFails fails) = 0 := by
      rw [List.countP_eq_zero]
      intro w hwmem
      rcases hsettled w hwmem with h | h <;> simp [h, runningFails]
    have hpos : 0 < (s.invoked.filter fails).length := by
      have hmem : i ∈ s.invoked.filter fails :=
        List.mem_filter.mpr ⟨hiinv, hifails⟩
      exact List.length_pos.mpr (fun hnil => by simp [hnil] at hmem)
    have hdpos : 0 < s.workers.countP Worker.isDead := by
      simp only [FailCount] at hfc
      omega
    obtain ⟨w, hwmem, hwdead⟩ := List.countP_pos_iff.mp hdpos
    have : w = Worker.dead := by
      cases w <;> simp [Worker.isDead] at hwdead <;> rfl
    rw [this] at hwmem
    exact hwmem

theorem runConcurrent_fault_isolation_amended_witness :
    (Worker.done ∈ (PoolState.workers (⟨[2], [Worker.dead], [1]⟩ : PoolState Int)) →
      (PoolState.queue (⟨[2], [Worker.dead], [1]⟩ : PoolState Int)) = []) ∧
    (∃ k ≤ ([1, 2] : List Int).length,
      (PoolState.queue (⟨[2], [Worker.dead], [1]⟩ : PoolState Int))
          = ([1, 2] : List Int).drop k ∧
      (PoolState.invoked (⟨[2], [Worker.dead], [1]⟩ : PoolState Int))
          = (([1, 2] : List Int).take k).filter intTruthy) ∧
    (poolRejects (⟨[2], [Worker.dead], [1]⟩ : PoolState Int) ↔
      ∃ i ∈ (PoolState.invoked (⟨[2], [Worker.dead], [1]⟩ : PoolState Int)),
        failsOn1 i = true) := by
  have h0 : initState [(1 : Int), 2] ((1 : Nat) : Int)
      = (⟨[1, 2], [Worker.idle], []⟩ : PoolState Int) := by decide
  refine runConcurrent_fault_isolation_amended [1, 2] intTruthy failsOn1 1
    (by decide) _ ?_ (by decide)
  have st1 : PoolStep intTruthy failsOn1
      (⟨[1, 2], [Worker.idle], []⟩ : PoolState Int) ⟨[2], [Worker.running 1], [1]⟩ :=
    PoolStep.claimRun [] [] [1, 2] [2] [] 1 (by decide)
  have st2 : PoolStep intTruthy failsOn1
      (⟨[2], [Worker.running 1], [1]⟩ : PoolState Int) ⟨[2], [Worker.dead], [1]⟩ :=
    PoolStep.finishFail [] [] [2] [1] 1 (by decide)
  rw [h0]
  exact Relation.ReflTransGen.head st1 (Relation.ReflTransGen.single st2)

/-- C10: when `runConcurrent` is called with `concurrency ≤ 0` or with an
empty items list, `Math.min(concurrency, items.length) ≤ 0` so the `for` loop
spawns zero workers; no state other than the initial one is reachable, `task`
is never invoked, and `Promise.all([])` resolves immediately — a silent
no-op, with no error and no hang. -/
theorem runConcurrent_degenerate_no_op (items : List T) (tru fails : T → Bool)
    (c : Int) (h : c ≤ 0 ∨ items = []) :
    (initState items c).workers = [] ∧
    Settled (initState items c) ∧
    ¬ poolRejects (initState items c) ∧
    ∀ s, PoolReach tru fails (initState items c) s →
      s = initState items c ∧ s.invoked = [] := by
  have hzero : (min c (items.length : Int)).toNat = 0 := by
    rcases h with h | h
    · omega
    · subst h; simp
  have hnil : (initState items c).workers = [] := by
    simp [initState, hzero]
  refine ⟨hnil, ?_, ?_, ?_⟩
  · intro w hw
    rw [hnil] at hw
    simp at hw
  · intro hrej
    rw [poolRejects, hnil] at hrej
    simp at hrej
  · intro s hs
    induction hs with
    | refl => exact ⟨rfl, rfl⟩
    | tail hprev hstep ih =>
      exact absurd (ih.1 ▸ poolStep_workers_ne_nil hstep) (by simp [hnil, ih.1])

theorem runConcurrent_degenerate_no_op_witness :
    (initState ([4] : List Int) (-2)).workers = [] ∧
    Settled (initState ([4] : List Int) (-2)) ∧
    ¬ poolRejects (initState ([4] : List Int) (-2)) ∧
    ∀ s, PoolReach intTruthy noFail (initState ([4] : List Int) (-2)) s →
      s = initState ([4] : List Int) (-2) ∧ s.invoked = [] :=
  runConcurrent_degenerate_no_op [4] intTruthy noFail (-2) (Or.inl (by decide))

/-! ### Claim theorems about the upload / crop / EXIF pipelines -/

/-- C4 counterexample: a catalog whose only record carrying hash `"h"` is
soft-deleted (`deleted_at = some 5`).  The duplicate check of `POST /images`
still fires — the upload fails with 409 `DUPLICATE_IMAGE` carrying id 1 after
deleting the staged temp file — although no non-deleted record with that hash
exists, refuting the "only if" direction of the claim. -/
theorem duplicate_check_cex :
    ingestUpload true true true "staging/tmp1" "up/f.jpg" "up/th.webp" "h" 2
        [⟨1, "h", some 5⟩] ["staging/tmp1"]
      = ⟨ApiResult.duplicate 1, [⟨1, "h", some 5⟩], []⟩ ∧
    ¬ ∃ r ∈ [(⟨1, "h", some 5⟩ : ImageRow)],
        r.deleted_at = none ∧ r.filehash = "h" :=
  ⟨by decide, by decide⟩

/-- C4 amended: the upload pipeline fails with 409 `DUPLICATE_IMAGE` —
carrying the id of the first matching record and after deleting the staged
temp file — if and only if *any* catalog record with the same content hash
exists at the time of the check, whether live or soft-deleted (the
`findFirst` lookup has no `deleted_at: null` filter); when no record at all
carries the hash, ingestion proceeds past the duplicate check and never
returns 409. -/
theorem duplicate_check_amended (thumbOk moveOk : Bool)
    (tempPath finalPath thumbPath h : String) (newId : Nat)
    (db : List ImageRow) (fs : List String) :
    ((∃ r ∈ db, r.filehash = h) ↔
      ∃ ex, findDuplicate db h = some ex ∧ ex ∈ db ∧ ex.filehash = h ∧
        ingestUpload true thumbOk moveOk tempPath finalPath thumbPath h newId db fs
          = ⟨ApiResult.duplicate ex.id, db, deleteFile tempPath fs⟩) ∧
    ((∀ r ∈ db, r.filehash ≠ h) →
      ∀ i, (ingestUpload true thumbOk moveOk tempPath finalPath thumbPath h
          newId db fs).resp ≠ ApiResult.duplicate i) := by
  cases hfd : findDuplicate db h with
  | some ex =>
    have hmem : ex ∈ db := List.mem_of_find?_eq_some hfd
    have hhash : ex.filehash = h := by
      have := List.find?_some hfd
      simpa using this
    constructor
    · constructor
      · intro _
        exact ⟨ex, rfl, hmem, hhash, by simp [ingestUpload, hfd]⟩
      · intro _
        exact ⟨ex, hmem, hhash⟩
    · intro hnone
      exact absurd hhash (hnone ex hmem)
  | none =>
    have hall : ∀ r ∈ db, r.filehash ≠ h := by
      intro r hr
      have := List.find?_eq_none.mp hfd r hr
      simpa using this
    refine ⟨⟨fun hex => ?_, fun hex => ?_⟩, fun _ i => ?_⟩
    · obtain ⟨r, hr, hh⟩ := hex
      exact absurd hh (hall r hr)
    · obtain ⟨ex, hex, -⟩ := hex
      simp [hfd] at hex
    · cases thumbOk <;> cases moveOk <;> simp [ingestUpload, hfd]

theorem duplicate_check_amended_witness :
    ((∃ r ∈ [(⟨1, "h", none⟩ : ImageRow)], r.filehash = "h") ↔
      ∃ ex, findDuplicate [(⟨1, "h", none⟩ : ImageRow)] "h" = some ex ∧
        ex ∈ [(⟨1, "h", none⟩ : ImageRow)] ∧ ex.filehash = "h" ∧
        ingestUpload true true true "staging/tmp1" "up/f.jpg" "up/th.webp" "h" 2
            [(⟨1, "h", none⟩ : ImageRow)] ["staging/tmp1"]
          = ⟨ApiResult.duplicate ex.id, [(⟨1, "h", none⟩ : ImageRow)],
              deleteFile "staging/tmp1" ["staging/tmp1"]⟩) ∧
    ((∀ r ∈ [(⟨1, "h", none⟩ : ImageRow)], r.filehash ≠ "h") →
      ∀ i, (ingestUpload true true true "staging/tmp1" "up/f.jpg" "up/th.webp" "h" 2
          [(⟨1, "h", none⟩ : ImageRow)] ["staging/tmp1"]).resp
        ≠ ApiResult.duplicate i) :=
  duplicate_check_amended true true "staging/tmp1" "up/f.jpg" "up/th.webp" "h" 2
    [⟨1, "h", none⟩] ["staging/tmp1"]

/-- C5: ingest rollback atomicity.  When the pipeline reaches the thumbnail
step (valid image, no duplicate) and thumbnail generation fails, the staged
temp file is deleted, no catalog record is created, and no thumbnail artifact
remains (none was written).  When relocation fails instead, the
just-generated thumbnail and the staged temp file are both deleted and no
catalog record is created. -/
theorem ingest_rollback (tempPath finalPath thumbPath h : String)
    (newId : Nat) (db : List ImageRow) (fs : List String)
    (hnodup : findDuplicate db h = none) :
    ((ingestUpload true false true tempPath finalPath thumbPath h newId db fs).db
        = db ∧
      tempPath ∉
        (ingestUpload true false true tempPath finalPath thumbPath h newId db fs).fs ∧
      (thumbPath ∉ fs → thumbPath ∉
        (ingestUpload true false true tempPath finalPath thumbPath h newId db fs).fs)) ∧
    ((ingestUpload true true false tempPath finalPath thumbPath h newId db fs).db
        = db ∧
      tempPath ∉
        (ingestUpload true true false tempPath finalPath thumbPath h newId db fs).fs ∧
      thumbPath ∉
        (ingestUpload true true false tempPath finalPath thumbPath h newId db fs).fs) := by
  simp [ingestUpload, hnodup, deleteFile, List.mem_filter]
  intro h1 h2
  exact absurd h2 h1

theorem ingest_rollback_witness :
    ((ingestUpload true false true "staging/t" "up/f.jpg" "up/th.webp" "h" 1 [] ["staging/t"]).db
        = [] ∧
      "staging/t" ∉
        (ingestUpload true false true "staging/t" "up/f.jpg" "up/th.webp" "h" 1 [] ["staging/t"]).fs ∧
      ("up/th.webp" ∉ ["staging/t"] → "up/th.webp" ∉
        (ingestUpload true false true "staging/t" "up/f.jpg" "up/th.webp" "h" 1 [] ["staging/t"]).fs)) ∧
    ((ingestUpload true true false "staging/t" "up/f.jpg" "up/th.webp" "h" 1 [] ["staging/t"]).db
        = [] ∧
      "staging/t" ∉
        (ingestUpload true true false "staging/t" "up/f.jpg" "up/th.webp" "h" 1 [] ["staging/t"]).fs ∧
      "up/th.webp" ∉
        (ingestUpload true true false "staging/t" "up/f.jpg" "up/th.webp" "h" 1 [] ["staging/t"]).fs) :=
  ingest_rollback "staging/t" "up/f.jpg" "up/th.webp" "h" 1 [] ["staging/t"] rfl

/-- C6 counterexample: the crop endpoint inserts its new row with no
duplicate check, so cropping an asset into bytes whose hash equals a live
record's hash yields two live records with the same `filehash`; likewise the
EXIF rewrite updates `filehash` with no duplicate check.  This refutes the
claim that every record-creating or record-rewriting operation preserves the
content-hash uniqueness invariant. -/
theorem hash_uniqueness_cex :
    liveUnique [⟨1, "h", none⟩] ∧
    cropPipeline true true true "tmp/c.jpg" "up/c.jpg" "up/tc.webp" "h" 2
        [⟨1, "h", none⟩] []
      = ⟨ApiResult.created ⟨2, "h", none⟩,
          [⟨1, "h", none⟩, ⟨2, "h", none⟩], ["up/c.jpg", "up/tc.webp"]⟩ ∧
    ¬ liveUnique [⟨1, "h", none⟩, ⟨2, "h", none⟩] ∧
    ¬ liveUnique (exifRewrite 2 "g" [⟨1, "g", none⟩, ⟨2, "h", none⟩]) :=
  ⟨by decide, by decide, by decide, by decide⟩

/-- C6 amended: the upload ingest path does preserve the invariant — its
duplicate check refuses to insert whenever any record carries the hash, so if
no two live records share a `filehash` before a `POST /images` call, none do
afterwards.  The crop-to-new-asset and EXIF-rewrite paths perform no
duplicate check and can break the invariant. -/
theorem ingest_preserves_hash_uniqueness (metaOk thumbOk moveOk : Bool)
    (tempPath finalPath thumbPath h : String) (newId : Nat)
    (db : List ImageRow) (fs : List String) (hu : liveUnique db) :
    liveUnique
      (ingestUpload metaOk thumbOk moveOk tempPath finalPath thumbPath h
        newId db fs).db := by
  by_cases hm : metaOk = false
  · simpa [ingestUpload, hm] using hu
  · cases hfd : findDuplicate db h with
    | some ex => simpa [ingestUpload, hm, hfd] using hu
    | none =>
      by_cases ht : thumbOk = false
      · simpa [ingestUpload, hm, hfd, ht] using hu
      · by_cases hmv : moveOk = false
        · simpa [ingestUpload, hm, hfd, ht, hmv] using hu
        · have hgoal :
              (ingestUpload metaOk thumbOk moveOk tempPath finalPath thumbPath h
                newId db fs).db = db ++ [⟨newId, h, none⟩] := by
            simp [ingestUpload, hm, hfd, ht, hmv]
          rw [hgoal]
          unfold liveUnique at hu ⊢
          rw [List.pairwise_append]
          refine ⟨hu, by simp, ?_⟩
          intro a ha b hb
          simp at hb
          subst hb
          intro _ _
          have := List.find?_eq_none.mp hfd a ha
          simpa using this

theorem ingest_preserves_hash_uniqueness_witness :
    liveUnique
      (ingestUpload true true true "staging/t" "up/f.jpg" "up/th.webp" "h" 2
        [⟨1, "g", none⟩] ["staging/t"]).db :=
  ingest_preserves_hash_uniqueness true true true "staging/t" "up/f.jpg"
    "up/th.webp" "h" 2 [⟨1, "g", none⟩] ["staging/t"] (by decide)

/-! ### Claim theorems about export download and naming -/

/-- C7 counterexample: a 200 response that delivers one chunk and then fires
an `error` event.  The item is reported as failed, but the partially-written
file remains at the destination path after the task settles —
`fileStream.close()` is called without deleting the file — refuting "no
partial file remains". -/
theorem export_partial_file_cex :
    downloadImage (.response 200 [[7, 9]] true) "dest/photo.jpg" []
      = (false, [("dest/photo.jpg", [7, 9])]) ∧
    ("dest/photo.jpg", [7, 9])
      ∈ (downloadImage (.response 200 [[7, 9]] true) "dest/photo.jpg" []).2 :=
  ⟨by decide, by decide⟩

/-- C7 amended: on a request error or a non-200 response the item fails with
no file created (the rejection happens before `fs.createWriteStream`); on an
I/O error during streaming the item is reported as failed without aborting
sibling downloads, but the partially-written file — holding the chunks
delivered before the error — is left at the destination path (the stream is
closed, not deleted); only an error-free 200 stream reports success. -/
theorem export_download_amended (fsx : List (String × List Nat))
    (destPath : String) (statusCode : Nat) (chunks : List (List Nat))
    (ioError : Bool) :
    (statusCode ≠ 200 →
      downloadImage (.response statusCode chunks ioError) destPath fsx
        = (false, fsx)) ∧
    (downloadImage .requestError destPath fsx = (false, fsx)) ∧
    (downloadImage (.response 200 chunks true) destPath fsx
      = (false, setFile destPath chunks.flatten fsx)) ∧
    (downloadImage (.response 200 chunks false) destPath fsx
      = (true, setFile destPath chunks.flatten fsx)) :=
  ⟨fun hs => by simp [downloadImage, hs], rfl,
    by simp [downloadImage], by simp [downloadImage]⟩

theorem export_download_amended_witness :
    ((404 : Nat) ≠ 200 →
      downloadImage (.response 404 [[1]] false) "dest/photo.jpg" []
        = (false, [])) ∧
    (downloadImage .requestError "dest/photo.jpg" [] = (false, [])) ∧
    (downloadImage (.response 200 [[1]] true) "dest/photo.jpg" []
      = (false, setFile "dest/photo.jpg" ([[1]] : List (List Nat)).flatten [])) ∧
    (downloadImage (.response 200 [[1]] false) "dest/photo.jpg" []
      = (true, setFile "dest/photo.jpg" ([[1]] : List (List Nat)).flatten [])) :=
  export_download_amended [] "dest/photo.jpg" 404 [[1]] false

/-- The fuelled collision loop returns the first free candidate at or after
`start`, provided a free candidate exists within `fuel` attempts. -/
theorem resolveExportPathAux_spec (fs : List String)
    (targetFolder filename : String) :
    ∀ (fuel start : Nat),
      (∃ j ≤ fuel, exportCandidate targetFolder filename (start + j) ∉ fs) →
      ∃ j ≤ fuel,
        resolveExportPathAux fs targetFolder filename fuel start
          = exportCandidate targetFolder filename (start + j) ∧
        exportCandidate targetFolder filename (start + j) ∉ fs ∧
        ∀ i < j, exportCandidate targetFolder filename (start + i) ∈ fs := by
  intro fuel
  induction fuel with
  | zero =>
    rintro start ⟨j, hj, hfree⟩
    have hj0 : j = 0 := Nat.le_zero.mp hj
    subst hj0
    exact ⟨0, Nat.le_refl 0, by simp [resolveExportPathAux], hfree,
      fun i hi => absurd hi (by omega)⟩
  | succ fuel ih =>
    rintro start ⟨j, hj, hfree⟩
    by_cases hmem : exportCandidate targetFolder filename start ∈ fs
    · have hjpos : j ≠ 0 := by
        intro hj0
        subst hj0
        exact hfree (by simpa using hmem)
      obtain ⟨j', rfl⟩ : ∃ j', j = j' + 1 := ⟨j - 1, by omega⟩
      have harith : start + (j' + 1) = (start + 1) + j' := by omega
      rw [harith] at hfree
      obtain ⟨j'', hj'', heq, hfree'', hall''⟩ :=
        ih (start + 1) ⟨j', by omega, hfree⟩
      have harith' : (start + 1) + j'' = start + (j'' + 1) := by omega
      refine ⟨j'' + 1, by omega, ?_, ?_, ?_⟩
      · rw [show resolveExportPathAux fs targetFolder filename (fuel + 1) start
            = resolveExportPathAux fs targetFolder filename fuel (start + 1) by
          simp [resolveExportPathAux, hmem]]
        rw [heq, harith']
      · rw [← harith']
        exact hfree''
      · intro i hi
        cases i with
        | zero => simpa using hmem
        | succ i' =>
          have : start + (i' + 1) = (start + 1) + i' := by omega
          rw [this]
          exact hall'' i' (by omega)
    · exact ⟨0, Nat.zero_le _, by simp [resolveExportPathAux, hmem],
        by simpa using hmem, fun i hi => absurd hi (by omega)⟩

/-- C8: collision-safe export naming.  Provided the destination directory
does not exhaust every candidate name (some candidate within `fs.length + 1`
attempts is free — always true on a real finite filesystem, for either
export), the export task's collision loop chooses the first free candidate:
the minimality clause holds for every starting directory, and in particular
when the sanitized display name is already taken the chosen path carries
suffix `_n` for the smallest `n ≥ 1` whose path is free.  Unconditionally,
the chosen path is free — the download never overwrites an existing file —
and exporting a second asset with the identical sanitized display name after
the first file has been created (`p₁ :: fs`) picks a free path distinct from
the first, so the two downloads land in two distinct files and neither
overwrites the other (fresh directory: `photo.jpg` then `photo_1.jpg`). -/
theorem export_collision_safe_naming (fs : List String)
    (targetFolder rawName : String)
    (hfree₁ : ∃ k ≤ fs.length + 1,
      exportCandidate targetFolder (sanitizeFilename rawName) k ∉ fs)
    (hfree₂ : ∃ k ≤ fs.length + 2,
      exportCandidate targetFolder (sanitizeFilename rawName) k ∉
        (resolveExportPath fs targetFolder (sanitizeFilename rawName) :: fs)) :
    (∃ n,
      resolveExportPath fs targetFolder (sanitizeFilename rawName)
        = exportCandidate targetFolder (sanitizeFilename rawName) n ∧
      exportCandidate targetFolder (sanitizeFilename rawName) n ∉ fs ∧
      ∀ m < n, exportCandidate targetFolder (sanitizeFilename rawName) m ∈ fs) ∧
    (exportCandidate targetFolder (sanitizeFilename rawName) 0 ∈ fs →
      ∃ n, 1 ≤ n ∧
        resolveExportPath fs targetFolder (sanitizeFilename rawName)
          = exportCandidate targetFolder (sanitizeFilename rawName) n ∧
        exportCandidate targetFolder (sanitizeFilename rawName) n ∉ fs ∧
        ∀ m < n, exportCandidate targetFolder (sanitizeFilename rawName) m ∈ fs) ∧
    resolveExportPath fs targetFolder (sanitizeFilename rawName) ∉ fs ∧
    resolveExportPath
        (resolveExportPath fs targetFolder (sanitizeFilename rawName) :: fs)
        targetFolder (sanitizeFilename rawName)
      ∉ (resolveExportPath fs targetFolder (sanitizeFilename rawName) :: fs) ∧
    resolveExportPath
        (resolveExportPath fs targetFolder (sanitizeFilename rawName) :: fs)
        targetFolder (sanitizeFilename rawName)
      ≠ resolveExportPath fs targetFolder (sanitizeFilename rawName) := by
  obtain ⟨k, hk, hkfree⟩ := hfree₁
  obtain ⟨j, hj, heq, hfree, hall⟩ :=
    resolveExportPathAux_spec fs targetFolder (sanitizeFilename rawName)
      (fs.length + 1) 0 ⟨k, hk, by simpa using hkfree⟩
  have hchosen :
      resolveExportPath fs targetFolder (sanitizeFilename rawName)
        = exportCandidate targetFolder (sanitizeFilename rawName) j := by
    rw [resolveExportPath, heq]
    simp
  obtain ⟨k₂, hk₂, hk₂free⟩ := hfree₂
  obtain ⟨j₂, hj₂, heq₂, hfree₂', hall₂⟩ :=
    resolveExportPathAux_spec
      (resolveExportPath fs targetFolder (sanitizeFilename rawName) :: fs)
      targetFolder (sanitizeFilename rawName)
      (fs.length + 2) 0 ⟨k₂, hk₂, by simpa using hk₂free⟩
  have hchosen₂ :
      resolveExportPath
          (resolveExportPath fs targetFolder (sanitizeFilename rawName) :: fs)
          targetFolder (sanitizeFilename rawName)
        = exportCandidate targetFolder (sanitizeFilename rawName) j₂ := by
    rw [resolveExportPath, List.length_cons]
    rw [show fs.length + 1 + 1 = fs.length + 2 by omega, heq₂]
    simp
  have hnotmem₂ :
      resolveExportPath
          (resolveExportPath fs targetFolder (sanitizeFilename rawName) :: fs)
          targetFolder (sanitizeFilename rawName)
        ∉ (resolveExportPath fs targetFolder (sanitizeFilename rawName) :: fs) := by
    rw [hchosen₂]
    simpa using hfree₂'
  refine ⟨⟨j, hchosen, by simpa using hfree, fun m hm => by simpa using hall m hm⟩,
    ?_, ?_, hnotmem₂, ?_⟩
  · intro hbase
    refine ⟨j, ?_, hchosen, by simpa using hfree, fun m hm => by simpa using hall m hm⟩
    rcases Nat.eq_zero_or_pos j with hj0 | hj0
    · subst hj0
      exact absurd hbase (by simpa using hfree)
    · omega
  · rw [hchosen]
    simpa using hfree
  · intro hcontra
    apply hnotmem₂
    rw [hcontra]
    exact List.mem_cons_self _ _

theorem export_collision_safe_naming_witness :
    ((∃ n,
      resolveExportPath [] "d" (sanitizeFilename "photo.jpg")
        = exportCandidate "d" (sanitizeFilename "photo.jpg") n ∧
      exportCandidate "d" (sanitizeFilename "photo.jpg") n ∉ ([] : List String) ∧
      ∀ m < n, exportCandidate "d" (sanitizeFilename "photo.jpg") m ∈ ([] : List String)) ∧
    (exportCandidate "d" (sanitizeFilename "photo.jpg") 0 ∈ ([] : List String) →
      ∃ n, 1 ≤ n ∧
        resolveExportPath [] "d" (sanitizeFilename "photo.jpg")
          = exportCandidate "d" (sanitizeFilename "photo.jpg") n ∧
        exportCandidate "d" (sanitizeFilename "photo.jpg") n ∉ ([] : List String) ∧
        ∀ m < n, exportCandidate "d" (sanitizeFilename "photo.jpg") m ∈ ([] : List String)) ∧
    resolveExportPath [] "d" (sanitizeFilename "photo.jpg") ∉ ([] : List String) ∧
    resolveExportPath
        (resolveExportPath [] "d" (sanitizeFilename "photo.jpg") :: [])
        "d" (sanitizeFilename "photo.jpg")
      ∉ (resolveExportPath [] "d" (sanitizeFilename "photo.jpg") :: []) ∧
    resolveExportPath
        (resolveExportPath [] "d" (sanitizeFilename "photo.jpg") :: [])
        "d" (sanitizeFilename "photo.jpg")
      ≠ resolveExportPath [] "d" (sanitizeFilename "photo.jpg")) ∧
    ((∃ n,
      resolveExportPath ["d/photo.jpg"] "d" (sanitizeFilename "photo.jpg")
        = exportCandidate "d" (sanitizeFilename "photo.jpg") n ∧
      exportCandidate "d" (sanitizeFilename "photo.jpg") n ∉ ["d/photo.jpg"] ∧
      ∀ m < n, exportCandidate "d" (sanitizeFilename "photo.jpg") m ∈ ["d/photo.jpg"]) ∧
    (exportCandidate "d" (sanitizeFilename "photo.jpg") 0 ∈ ["d/photo.jpg"] →
      ∃ n, 1 ≤ n ∧
        resolveExportPath ["d/photo.jpg"] "d" (sanitizeFilename "photo.jpg")
          = exportCandidate "d" (sanitizeFilename "photo.jpg") n ∧
        exportCandidate "d" (sanitizeFilename "photo.jpg") n ∉ ["d/photo.jpg"] ∧
        ∀ m < n, exportCandidate "d" (sanitizeFilename "photo.jpg") m ∈ ["d/photo.jpg"]) ∧
    resolveExportPath ["d/photo.jpg"] "d" (sanitizeFilename "photo.jpg") ∉ ["d/photo.jpg"] ∧
    resolveExportPath
        (resolveExportPath ["d/photo.jpg"] "d" (sanitizeFilename "photo.jpg")
          :: ["d/photo.jpg"])
        "d" (sanitizeFilename "photo.jpg")
      ∉ (resolveExportPath ["d/photo.jpg"] "d" (sanitizeFilename "photo.jpg")
          :: ["d/photo.jpg"]) ∧
    resolveExportPath
        (resolveExportPath ["d/photo.jpg"] "d" (sanitizeFilename "photo.jpg")
          :: ["d/photo.jpg"])
        "d" (sanitizeFilename "photo.jpg")
      ≠ resolveExportPath ["d/photo.jpg"] "d" (sanitizeFilename "photo.jpg")) :=
  ⟨export_collision_safe_naming [] "d" "photo.jpg"
      ⟨0, by decide, by decide⟩ ⟨1, by decide, by decide⟩,
    export_collision_safe_naming ["d/photo.jpg"] "d" "photo.jpg"
      ⟨1, by decide, by decide⟩ ⟨2, by decide, by decide⟩⟩

/-! ### Claim theorem about `generateUniqueFilename` -/

/-- Two strings of equal length followed by arbitrary tails: equality of the
concatenations forces equality of the heads. -/
theorem string_append_inj_of_length_eq {a b c d : String}
    (hlen : a.length = b.length) (h : a ++ c = b ++ d) : a = b := by
  have hdata : a.data ++ c.data = b.data ++ d.data := by
    have := congrArg String.data h
    simpa using this
  have hlen' : a.data.length = b.data.length := hlen
  exact String.ext (List.append_inj hdata hlen').1

/-- C9: `generateUniqueFilename(originalName, hash)` returns exactly
`<hash>_<timestampMillis><ext>` with `ext` taken from `originalName`, and for
hashes of equal length (the hasher emits fixed-width 32-character MD5 hex
digests) distinct hashes give distinct derived filenames even when both calls
observe the same timestamp — so files with pairwise-distinct hashes get
pairwise-distinct filenames. -/
theorem generateUniqueFilename_spec (n₁ n₂ h₁ h₂ : String) (t : Nat)
    (hlen : h₁.length = h₂.length) (hne : h₁ ≠ h₂) :
    generateUniqueFilename n₁ h₁ t
      = h₁ ++ "_" ++ toString t ++ extname n₁ ∧
    generateUniqueFilename n₁ h₁ t ≠ generateUniqueFilename n₂ h₂ t := by
  refine ⟨rfl, fun heq => hne ?_⟩
  have h' : h₁ ++ ("_" ++ (toString t ++ extname n₁))
      = h₂ ++ ("_" ++ (toString t ++ extname n₂)) := by
    simpa [generateUniqueFilename, String.append_assoc] using heq
  exact string_append_inj_of_length_eq hlen h'

theorem generateUniqueFilename_spec_witness :
    generateUniqueFilename "x.jpg" "aa" 7
      = "aa" ++ "_" ++ toString 7 ++ extname "x.jpg" ∧
    generateUniqueFilename "x.jpg" "aa" 7 ≠ generateUniqueFilename "y.png" "ab" 7 :=
  generateUniqueFilename_spec "x.jpg" "y.png" "aa" "ab" 7 (by decide) (by decide)

end Gallery
